import Mathlib

/-!
# driftingboy/aggregator: the batching engine of `aggregator.go`

A shallow embedding of `NewAggregator`, `TryEnqueue`, `work` and `batchProcess`.

* Go `int` / `time.Duration` fields are `Int` (no arithmetic that could overflow is
  performed on them, only comparisons).
* A slice is a header `(backing array, len)` over a heap of backing arrays, so that
  `batch = batch[:0]` followed by `append` re-uses the backing array as Go does.
* The three `select` branches of `work` are the events `item`, `timer` and `quit`;
  the runtime expiring the delay timer is the environment event `expire`; an
  error-handler goroutine returning is the environment event `handlerDone`.
* `time.Timer` follows the channel semantics the source comment at the
  `delayTimer.Stop()` call is written for: `C` has capacity one, `Stop` and `Reset`
  do not drain it.
* Time is not measured: a timer records the duration it was last armed with, and
  the moment it expires is chosen by the environment (`expire`, or the flag of `item`).
* `make` follows the 64-bit runtime before Go 1.23 (`maxAlloc = 1 << 48`, an
  `interface{}` is 16 bytes, `hchanSize = 96`): a capacity that is negative or whose
  memory exceeds the limit panics. An allocation within the limit is taken to succeed.
* The zero value of `interface{}` that fills a fresh backing array is `default`.
* A started aggregator (`Engine`) is the handle, the workers spawned by `Start` and
  the caller of `Stop` or `SafeStop`; its goroutines act one at a time (`Action`) on
  the shared queue, quit channel and WaitGroup counter. `batchProcess` is the
  composition of its `wg.Add(1)`, its body and its deferred `wg.Done()`.
* Logging is omitted; a panicking batch processor is outside the model (the
  processor is a function returning `nil` or an error).
-/

namespace Aggr

/-! ## Configuration -/

/-- Label standing for a `logger.Logger` value (external collaborator). -/
structure Logger where
  id : Nat
deriving DecidableEq, Repr

/-- Label standing for an `ErrorHandlerFunc` value (external collaborator). -/
structure ErrorHandlerFunc where
  id : Nat
deriving DecidableEq, Repr

/-- The value of `DefaultLogger`. -/
def DefaultLogger : Logger := ⟨0⟩

/-- Struct `AggregatorOption`; `ErrorHandler = none` is the nil func. -/
structure AggregatorOption where
  BatchSize : Int
  Workers : Int
  ChannelBufferSize : Int
  DelayTime : Int
  ErrorHandler : Option ErrorHandlerFunc
  logger : Logger
  debug : Bool
deriving DecidableEq, Repr

/-- Type `SetAggregatorOptionFunc`. -/
abbrev SetAggregatorOptionFunc := AggregatorOption → AggregatorOption

/-- Type `BatchProcessFunc`: `none` is a nil error. -/
abbrev BatchProcessFunc (α ε : Type) := List α → Option ε

def WithBatchSize (size : Int) : SetAggregatorOptionFunc :=
  fun option => { option with BatchSize := size }

def WithChannelBufferSize (size : Int) : SetAggregatorOptionFunc :=
  fun option => { option with ChannelBufferSize := size }

def WithWorkerNum (workerNum : Int) : SetAggregatorOptionFunc :=
  fun option => { option with Workers := workerNum }

def WithDelayTime (timeout : Int) : SetAggregatorOptionFunc :=
  fun option => { option with DelayTime := timeout }

def WithErrorHandle (eh : Option ErrorHandlerFunc) : SetAggregatorOptionFunc :=
  fun option => { option with ErrorHandler := eh }

def WithLogger (log : Logger) : SetAggregatorOptionFunc :=
  fun option => { option with logger := log }

def WithDebug (debug : Bool) : SetAggregatorOptionFunc :=
  fun option => { option with debug := debug }

/-- One second as a `time.Duration` (nanoseconds). -/
def Second : Int := 1000000000

/-- One millisecond as a `time.Duration` (nanoseconds). -/
def Millisecond : Int := 1000000

/-- The literal `option := AggregatorOption{...}` of `NewAggregator`;
`numCPU` is the value of `runtime.NumCPU()`. -/
def defaultOption (numCPU : Int) : AggregatorOption :=
  { BatchSize := 10
    Workers := numCPU
    DelayTime := 1 * Second
    ChannelBufferSize := 20
    ErrorHandler := none
    logger := DefaultLogger
    debug := false }

/-- The loop `for _, optionFunc := range optionFuncs { option = optionFunc(option) }`. -/
def applyOptionFuncs (option : AggregatorOption) (optionFuncs : List SetAggregatorOptionFunc) :
    AggregatorOption :=
  optionFuncs.foldl (fun o f => f o) option

/-- The statement `if option.ChannelBufferSize <= option.Workers { ... }`. -/
def floorChannelBufferSize (option : AggregatorOption) : AggregatorOption :=
  if option.ChannelBufferSize ≤ option.Workers then
    { option with ChannelBufferSize := option.Workers }
  else option

/-- Struct `Aggregator`. `sendQ` is the content of the buffered channel, oldest item
first; its capacity is `option.ChannelBufferSize`, fixed by `make` in `NewAggregator`.
`quit = true` means the channel `quit` is closed. `wg` is the WaitGroup counter. -/
structure Aggregator (α ε : Type) where
  option : AggregatorOption
  wg : Int
  quit : Bool
  sendQ : List α
  batchProcessor : BatchProcessFunc α ε

/-- Runtime constant `maxAlloc` (64-bit, 48 heap address bits). -/
def maxAlloc : Int := 281474976710656

/-- Size in bytes of an `interface{}` value, the element type of `sendQ` and `batch`. -/
def interfaceSize : Int := 16

/-- Runtime constant `hchanSize`, the size of a channel header. -/
def hchanSize : Int := 96

/-- Whether `make(chan interface{}, size)` panics (`makechan: size out of range`):
`mem > maxAlloc-hchanSize || size < 0` in the runtime function `makechan`. -/
def makechanPanics (size : Int) : Bool :=
  decide (size < 0) || decide (interfaceSize * size > maxAlloc - hchanSize)

/-- Whether `make([]interface{}, 0, cap)` panics (`makeslice: cap out of range`):
`mem > maxAlloc || len > cap` in the runtime function `makeslice`, with `len = 0`. -/
def makeslicePanics (cap : Int) : Bool :=
  decide (cap < 0) || decide (interfaceSize * cap > maxAlloc)

/-- Function `NewAggregator`. The result is `none` when `make(chan interface{}, n)`
panics; nothing recovers the panic. -/
def NewAggregator {α ε : Type} (numCPU : Int) (batchProcessor : BatchProcessFunc α ε)
    (optionFuncs : List SetAggregatorOptionFunc) : Option (Aggregator α ε) :=
  let option := floorChannelBufferSize (applyOptionFuncs (defaultOption numCPU) optionFuncs)
  if makechanPanics option.ChannelBufferSize then none
  else some
    { sendQ := []
      option := option
      quit := false
      wg := 0
      batchProcessor := batchProcessor }

/-! ## Intake queue -/

/-- One `select { case agt.sendQ <- item: ... default: ... }` attempt: the send
proceeds iff the buffer has room (a receiver parked on the channel means an empty
buffer, and a capacity of zero only arises with `Workers ≤ 0`, that is without
receivers). -/
def trySend {α ε : Type} (agt : Aggregator α ε) (item : α) : Option (Aggregator α ε) :=
  if (agt.sendQ.length : Int) < agt.option.ChannelBufferSize then
    some { agt with sendQ := agt.sendQ ++ [item] }
  else none

/-- Outcome of `TryEnqueue`: the returned boolean, the aggregator afterwards and the
number of send attempts executed. -/
structure TryEnqueueResult (α ε : Type) where
  ok : Bool
  agt : Aggregator α ε
  attempts : Nat

/-- Method `TryEnqueue`. `gosched` is what the other goroutines do to the queue while
the caller is descheduled by `runtime.Gosched()`. -/
def TryEnqueue {α ε : Type} (agt : Aggregator α ε) (item : α) (gosched : List α → List α) :
    TryEnqueueResult α ε :=
  match trySend agt item with
  | some agt1 => ⟨true, agt1, 1⟩
  | none =>
    let agt1 := { agt with sendQ := gosched agt.sendQ }
    match trySend agt1 item with
    | some agt2 => ⟨true, agt2, 2⟩
    | none => ⟨false, agt1, 2⟩

/-! ## Timer -/

/-- A `*time.Timer`: `active` means the runtime timer is pending, `C` means the
channel `C` (capacity one) holds a value, `d` is the duration the timer was last
armed with by `NewTimer` or `Reset` (the window after which it expires). -/
structure Timer where
  active : Bool
  C : Bool
  d : Int
deriving DecidableEq, Repr

namespace Timer

/-- Function `time.NewTimer(d)`. -/
def NewTimer (d : Int) : Timer := ⟨true, false, d⟩

/-- The runtime expires a pending timer: a non-blocking send on `C`. -/
def expire (t : Timer) : Timer :=
  if t.active then { t with active := false, C := true } else t

/-- Method `Stop`: returns whether the call stopped a pending timer. -/
def Stop (t : Timer) : Bool × Timer :=
  (t.active, { t with active := false })

/-- Method `Reset(d)`. -/
def Reset (t : Timer) (d : Int) : Timer :=
  { t with active := true, d := d }

/-- A receive `<-t.C`: `none` when the channel is empty (the receive does not proceed). -/
def recv (t : Timer) : Option Timer :=
  if t.C then some { t with C := false } else none

end Timer

/-! ## Slices -/

/-- A slice header: index of the backing array in the heap, and `len`. Every slice
of `work` starts at offset zero, so `cap` is the length of the backing array. -/
structure Slice where
  arr : Nat
  len : Nat
deriving DecidableEq, Repr

/-- The elements a reader of the slice sees in the given heap. -/
def Slice.read {α : Type} (heap : List (List α)) (s : Slice) : List α :=
  (heap.getD s.arr []).take s.len

/-- Builtin `append(s, x)` for one element: written in place when `len < cap`,
otherwise into a newly allocated array holding the old elements (the new capacity is
taken to be exactly `len + 1`; in `work` this case only arises for a capacity of zero). -/
def Slice.append {α : Type} (heap : List (List α)) (s : Slice) (x : α) :
    List (List α) × Slice :=
  let a := heap.getD s.arr []
  if s.len < a.length then
    (heap.set s.arr (a.set s.len x), ⟨s.arr, s.len + 1⟩)
  else
    (heap ++ [a.take s.len ++ [x]], ⟨heap.length, s.len + 1⟩)

/-! ## Worker -/

/-- Where the goroutine running `work` is. `blocked` is the receive `<-delayTimer.C`
of the size branch waiting on an empty channel of a stopped timer; `panicked` is the
recovered panic of `make` in the prologue (no timer exists then). -/
inductive Status where
  | waiting
  | blocked
  | returned
  | panicked
deriving DecidableEq, Repr

/-- The arguments of one `go agt.option.ErrorHandler(err, items, ...)`. -/
structure HandlerCall (ε : Type) where
  err : ε
  items : Slice

/-- State of one worker goroutine and of what it shares with the rest of the program.
`calls` lists the batches handed to `batchProcessor`, as the processor read them,
oldest first. `handlers` lists the error-handler goroutines spawned and not yet
returned. `wg` is the WaitGroup counter as this goroutine sees it (in `work` below:
the counter of an aggregator started with this one worker). -/
structure Worker (α ε : Type) where
  status : Status
  heap : List (List α)
  batch : Slice
  delayTimer : Timer
  wg : Int
  calls : List (List α)
  handlers : List (HandlerCall ε)

/-- Events of a worker. `item req fired`: the select takes `case req := <-agt.sendQ`;
`fired` tells whether the delay timer expires while that branch runs (it matters only
when the branch flushes). `expire`: the runtime expires the delay timer between two
selects. `timer`: the select takes `case <-delayTimer.C`. `quit`: the select takes
`case <-agt.quit`. `handlerDone i`: the `i`-th outstanding error handler returns. -/
inductive Event (α : Type) where
  | item (req : α) (fired : Bool)
  | expire
  | timer
  | quit
  | handlerDone (i : Nat)
deriving DecidableEq

/-- The first statement of `batchProcess`, `agt.wg.Add(1)`: the state in which the
processor is invoked. -/
def batchProcessAdd {α ε : Type} (w : Worker α ε) : Worker α ε :=
  { w with wg := w.wg + 1 }

/-- The body of `batchProcess` between `agt.wg.Add(1)` and the deferred
`agt.wg.Done()`: the processor call and, on an error with a handler configured,
`go agt.option.ErrorHandler(err, items, ...)`. -/
def batchProcessCall {α ε : Type} (option : AggregatorOption)
    (batchProcessor : BatchProcessFunc α ε) (w : Worker α ε) (items : Slice) : Worker α ε :=
  let data := items.read w.heap
  let w2 := { w with calls := w.calls ++ [data] }
  match batchProcessor data with
  | some err =>
    match option.ErrorHandler with
    | some _ => { w2 with handlers := w2.handlers ++ [HandlerCall.mk err items] }
    | none => w2
  | none => w2

/-- The deferred `agt.wg.Done()` of `batchProcess`. -/
def batchProcessDone {α ε : Type} (w : Worker α ε) : Worker α ε :=
  { w with wg := w.wg - 1 }

/-- Method `batchProcess`. -/
def batchProcess {α ε : Type} (option : AggregatorOption) (batchProcessor : BatchProcessFunc α ε)
    (w : Worker α ε) (items : Slice) : Worker α ε :=
  batchProcessDone (batchProcessCall option batchProcessor (batchProcessAdd w) items)

/-- The prologue of `work`, entered with WaitGroup counter `wg`: the two defers,
`make([]interface{}, 0, BatchSize)` and `time.NewTimer`. -/
def workInit {α ε : Type} [Inhabited α] (option : AggregatorOption) (wg : Int) : Worker α ε :=
  if makeslicePanics option.BatchSize then
    { status := .panicked, heap := [], batch := ⟨0, 0⟩, delayTimer := ⟨false, false, 0⟩,
      wg := wg - 1, calls := [], handlers := [] }
  else
    { status := .waiting, heap := [List.replicate option.BatchSize.toNat default],
      batch := ⟨0, 0⟩, delayTimer := Timer.NewTimer option.DelayTime, wg := wg,
      calls := [], handlers := [] }

/-- The body of `case req := <-agt.sendQ`. -/
def onItem {α ε : Type} (option : AggregatorOption) (batchProcessor : BatchProcessFunc α ε)
    (w : Worker α ε) (req : α) (fired : Bool) : Worker α ε :=
  let hb := Slice.append w.heap w.batch req
  let w1 := { w with heap := hb.1, batch := hb.2 }
  if (w1.batch.len : Int) < option.BatchSize then w1
  else
    let w2 := batchProcess option batchProcessor w1 w1.batch
    let t := if fired then w2.delayTimer.expire else w2.delayTimer
    let st := t.Stop
    if st.1 then
      { w2 with delayTimer := st.2.Reset option.DelayTime, batch := ⟨w2.batch.arr, 0⟩ }
    else
      match st.2.recv with
      | some t2 =>
        { w2 with delayTimer := t2.Reset option.DelayTime, batch := ⟨w2.batch.arr, 0⟩ }
      | none => { w2 with delayTimer := st.2, status := .blocked }

/-- The body of `case <-delayTimer.C`, entered after the receive delivered `t`. -/
def onTimer {α ε : Type} (option : AggregatorOption) (batchProcessor : BatchProcessFunc α ε)
    (w : Worker α ε) (t : Timer) : Worker α ε :=
  let w1 := { w with delayTimer := t }
  let w2 :=
    if w1.batch.len > 0 then
      let w3 := batchProcess option batchProcessor w1 w1.batch
      { w3 with batch := ⟨w3.batch.arr, 0⟩ }
    else w1
  { w2 with delayTimer := w2.delayTimer.Reset option.DelayTime }

/-- The body of `case <-agt.quit` followed by the deferred `delayTimer.Stop()` and
`agt.wg.Done()`. -/
def onQuit {α ε : Type} (option : AggregatorOption) (batchProcessor : BatchProcessFunc α ε)
    (w : Worker α ε) : Worker α ε :=
  let w1 := if w.batch.len ≠ 0 then batchProcess option batchProcessor w w.batch else w
  { w1 with delayTimer := w1.delayTimer.Stop.2, wg := w1.wg - 1, status := .returned }

/-- One event. A goroutine that is not at the select ignores `item`, `timer` and
`quit`; `timer` is not selectable while `delayTimer.C` is empty. -/
def workStep {α ε : Type} (option : AggregatorOption) (batchProcessor : BatchProcessFunc α ε)
    (w : Worker α ε) : Event α → Worker α ε
  | .expire => { w with delayTimer := w.delayTimer.expire }
  | .handlerDone i => { w with handlers := w.handlers.eraseIdx i }
  | .item req fired =>
    match w.status with
    | .waiting => onItem option batchProcessor w req fired
    | _ => w
  | .timer =>
    match w.status with
    | .waiting =>
      match w.delayTimer.recv with
      | some t => onTimer option batchProcessor w t
      | none => w
    | _ => w
  | .quit =>
    match w.status with
    | .waiting => onQuit option batchProcessor w
    | _ => w

/-- Method `Start` for an aggregator with one worker followed by the events the
worker goes through: `wg.Add(1)`, `go agt.work(0)`. -/
def work {α ε : Type} [Inhabited α] (option : AggregatorOption)
    (batchProcessor : BatchProcessFunc α ε) (events : List (Event α)) : Worker α ε :=
  events.foldl (workStep option batchProcessor) (workInit option (0 + 1))

/-- The items received from `sendQ` in a list of events, in arrival order. -/
def received {α : Type} : List (Event α) → List α
  | [] => []
  | .item req _ :: es => req :: received es
  | _ :: es => received es

/-- The pending batch as a reader sees it. -/
def Worker.pending {α ε : Type} (w : Worker α ε) : List α :=
  w.batch.read w.heap

/-- What the `i`-th outstanding error handler sees when it reads its `items` argument. -/
def Worker.handlerView {α ε : Type} (w : Worker α ε) (i : Nat) : Option (List α) :=
  (w.handlers.get? i).map (fun h => h.items.read w.heap)

/-- Method `sync.WaitGroup.Wait` returns exactly when the counter is zero: whether
`Stop` / `SafeStop` can return in this state. -/
def Worker.waitReturns {α ε : Type} (w : Worker α ε) : Bool :=
  w.wg == 0

/-! ## The started aggregator -/

/-- Where the goroutine that calls `Stop` or `SafeStop` is (one such call is
modelled). `polling` is the ticker loop of `SafeStop` with its `timeout`; `inWait` is
`agt.wg.Wait()`; `returned` means the call has returned: termination is reported. -/
inductive Caller where
  | absent
  | polling (timeout : Int)
  | inWait
  | returned
deriving DecidableEq, Repr

/-- A started aggregator: the handle (`agt.wg` is the WaitGroup counter shared by all
goroutines), its worker goroutines in the order `Start` spawned them, and the caller
of `Stop` or `SafeStop`. The field `wg` of a worker is the shared counter as that
goroutine last left it. -/
structure Engine (α ε : Type) where
  agt : Aggregator α ε
  workers : List (Worker α ε)
  caller : Caller

/-- One iteration of the loop of `Start`: `agt.wg.Add(1)` and `go agt.work(i)`, the
prologue of `work` included. -/
def spawnWorker {α ε : Type} [Inhabited α] (en : Engine α ε) : Engine α ε :=
  let w : Worker α ε := workInit en.agt.option (en.agt.wg + 1)
  { en with agt := { en.agt with wg := w.wg }, workers := en.workers ++ [w] }

/-- Method `Start`: `for i := 0; i < agt.option.Workers; i++ { ... }`. -/
def Start {α ε : Type} [Inhabited α] (agt : Aggregator α ε) : Engine α ε :=
  (List.range agt.option.Workers.toNat).foldl (fun en _ => spawnWorker en) ⟨agt, [], .absent⟩

/-- Worker `index` goes through one event of `work` on the shared counter. -/
def Engine.workerStep {α ε : Type} (en : Engine α ε) (index : Nat) (e : Event α) :
    Engine α ε :=
  match en.workers[index]? with
  | none => en
  | some w =>
    let w1 := workStep en.agt.option en.agt.batchProcessor { w with wg := en.agt.wg } e
    { en with agt := { en.agt with wg := w1.wg }, workers := en.workers.set index w1 }

/-- The statement `close(agt.quit)` of `Stop` and `SafeStop`; the caller goes on to
`agt.wg.Wait()`. -/
def closeQuit {α ε : Type} (en : Engine α ε) : Engine α ε :=
  { en with agt := { en.agt with quit := true }, caller := .inWait }

/-- Method `Stop`, up to its `agt.wg.Wait()`. -/
def Stop {α ε : Type} (en : Engine α ε) : Engine α ε :=
  match en.caller with
  | .absent => closeQuit en
  | _ => en

/-- Method `SafeStop(timeout)`, its first `if len(agt.sendQ) == 0`: either quit is
closed at once or the caller enters the ticker loop. -/
def SafeStop {α ε : Type} (en : Engine α ε) (timeout : Int) : Engine α ε :=
  match en.caller with
  | .absent =>
    if en.agt.sendQ.length = 0 then closeQuit en else { en with caller := .polling timeout }
  | _ => en

/-- The branch `case <-ticker.C` (or one round of `for range ticker.C`) of `SafeStop`. -/
def SafeStop_tick {α ε : Type} (en : Engine α ε) : Engine α ε :=
  match en.caller with
  | .polling _ => if en.agt.sendQ.length = 0 then closeQuit en else en
  | _ => en

/-- The branch `case <-overTimer.C` of `SafeStop`; the timer exists only for
`timeout > 0`. -/
def SafeStop_overTimer {α ε : Type} (en : Engine α ε) : Engine α ε :=
  match en.caller with
  | .polling timeout => if timeout > 0 then closeQuit en else en
  | _ => en

/-- The final `agt.wg.Wait()` of `Stop` and `SafeStop` returns, which it does only
with the counter at zero; the caller then returns. -/
def Wait_returns {α ε : Type} (en : Engine α ε) : Engine α ε :=
  match en.caller with
  | .inWait => if en.agt.wg = 0 then { en with caller := .returned } else en
  | _ => en

/-- What the goroutines of a started aggregator do, one at a time. `enqueue`: a
producer's send on `sendQ` proceeds. `recv i fired`: worker `i`, at its select,
receives the head of `sendQ`. `expire`, `timer`, `quit`, `handlerDone`: the events of
worker `i`; `quit` needs the channel `quit` closed. The others are the steps of the
caller of `Stop` or `SafeStop`. An action that is not possible leaves the state. -/
inductive Action (α : Type) where
  | enqueue (item : α)
  | recv (index : Nat) (fired : Bool)
  | expire (index : Nat)
  | timer (index : Nat)
  | quit (index : Nat)
  | handlerDone (index : Nat) (i : Nat)
  | stop
  | safeStop (timeout : Int)
  | tick
  | overTimer
  | waitReturns

/-- One action of a started aggregator. -/
def engineStep {α ε : Type} (en : Engine α ε) : Action α → Engine α ε
  | .enqueue item =>
    match trySend en.agt item with
    | some agt => { en with agt := agt }
    | none => en
  | .recv index fired =>
    match en.agt.sendQ, en.workers[index]? with
    | req :: rest, some w =>
      if w.status = .waiting then
        Engine.workerStep { en with agt := { en.agt with sendQ := rest } } index
          (.item req fired)
      else en
    | _, _ => en
  | .expire index => en.workerStep index .expire
  | .timer index => en.workerStep index .timer
  | .quit index => if en.agt.quit then en.workerStep index .quit else en
  | .handlerDone index i => en.workerStep index (.handlerDone i)
  | .stop => Stop en
  | .safeStop timeout => SafeStop en timeout
  | .tick => SafeStop_tick en
  | .overTimer => SafeStop_overTimer en
  | .waitReturns => Wait_returns en

/-- Method `Start` on a constructed aggregator, followed by a sequence of actions. -/
def run {α ε : Type} [Inhabited α] (agt : Aggregator α ε) (actions : List (Action α)) :
    Engine α ε :=
  actions.foldl engineStep (Start agt)

/-- The contribution of one worker loop to the number of running loops. -/
def Worker.loop {α ε : Type} (w : Worker α ε) : Int :=
  if w.status = .waiting then 1 else 0

/-- The number of worker loops that are running. -/
def Engine.running {α ε : Type} (en : Engine α ε) : Int :=
  (en.workers.map Worker.loop).sum

/-- The number of error-handler dispatches spawned and not yet returned. -/
def Engine.outstanding {α ε : Type} (en : Engine α ε) : Nat :=
  (en.workers.map (fun w => w.handlers.length)).sum

/-! ## Invariants -/

/-- The delay timer, last armed with duration `d`, is armed with an empty channel, or
it has fired and its value is still in `C`. -/
def Timer.Ready (t : Timer) (d : Int) : Prop :=
  t = ⟨true, false, d⟩ ∨ t = ⟨false, true, d⟩

/-- Holds of every worker goroutine of a started aggregator: it is never stuck in the
drain receive, and at every select its timer is armed for `DelayTime` or fired and
unconsumed. -/
def Live {α ε : Type} (option : AggregatorOption) (w : Worker α ε) : Prop :=
  w.status ≠ .blocked ∧ (w.status = .waiting → w.delayTimer.Ready option.DelayTime)

/-- Holds in every state the worker reaches, whatever the options: the goroutine is
never stuck in the drain receive, the timer is armed or fired-and-unconsumed at every
select, and the WaitGroup counts exactly the running loop. -/
def Sound {α ε : Type} (option : AggregatorOption) (w : Worker α ε) : Prop :=
  w.status ≠ .blocked ∧ (w.status = .waiting → w.delayTimer.Ready option.DelayTime) ∧
    w.wg = if w.status = .waiting then 1 else 0

/-- Holds in every state the worker reaches when `BatchSize > 0`: every batch handed
to the processor has between one and `BatchSize` items, and at the select the batch
lives in an array of capacity `BatchSize` and holds fewer than `BatchSize` items. -/
def Bounded {α ε : Type} (option : AggregatorOption) (w : Worker α ε) : Prop :=
  (∀ c ∈ w.calls, 1 ≤ c.length ∧ (c.length : Int) ≤ option.BatchSize) ∧
    (w.status = .waiting →
      (w.heap.getD w.batch.arr []).length = option.BatchSize.toNat ∧
      (w.batch.len : Int) < option.BatchSize)

/-- Holds in every state of a started aggregator: the WaitGroup counter is the number
of running worker loops, every worker is live, and once `Stop` or `SafeStop` has
returned no worker loop is running. -/
def EngineInv {α ε : Type} (en : Engine α ε) : Prop :=
  en.agt.wg = en.running ∧ (∀ w ∈ en.workers, Live en.agt.option w) ∧
    (en.caller = .returned → ∀ w ∈ en.workers, w.status ≠ .waiting)

/-! ## Concrete runs -/

/-- The option of `TestFlowWithDataRace`: `WithWorkerNum(1)`, `WithDelayTime(50ms)`,
everything else default, on a host with four CPUs. -/
def testOption : AggregatorOption :=
  floorChannelBufferSize
    (applyOptionFuncs (defaultOption 4) [WithWorkerNum 1, WithDelayTime (50 * Millisecond)])

/-- The handler of `TestFlowWithDataRace`: always returns nil. -/
def okProcessor : BatchProcessFunc Nat String := fun _ => none

/-- Items `0..21` at once, a pause in which the 50ms timer fires three times, then
items `22..28`. -/
def testEvents : List (Event Nat) :=
  (List.range 22).map (fun i => Event.item i false)
    ++ [Event.expire, Event.timer, Event.expire, Event.timer, Event.expire, Event.timer]
    ++ (List.range 7).map (fun i => Event.item (22 + i) false)

/-- A batch size of two and an error handler configured. -/
def handlerOption : AggregatorOption :=
  applyOptionFuncs (defaultOption 4) [WithBatchSize 2, WithErrorHandle (some ⟨1⟩)]

/-- A processor that fails on every batch. -/
def failProcessor : BatchProcessFunc Nat String := fun _ => some "failed"

/-- An aggregator with one worker, a batch size of two and an error handler. -/
def handlerSetters : List SetAggregatorOptionFunc :=
  [WithWorkerNum 1, WithBatchSize 2, WithErrorHandle (some ⟨1⟩)]

/-- Two items are enqueued and received by worker 0, whose size flush fails and
spawns the handler; `Stop` is called, the worker takes quit, `Wait` returns. -/
def stopActions : List (Action Nat) :=
  [.enqueue 1, .enqueue 2, .recv 0 false, .recv 0 false, .stop, .quit 0, .waitReturns]

/-- One worker with a batch size of three, as in the scenario of `overTimerActions`. -/
def slowSetters : List SetAggregatorOptionFunc :=
  [WithWorkerNum 1, WithBatchSize 3]

/-- Five items are enqueued, worker 0 has received the first; `SafeStop(10ms)` finds
the queue non-empty and polls; `overTimer` fires and quit is closed; the worker takes
quit and `Wait` returns. -/
def overTimerActions : List (Action Nat) :=
  [.enqueue 1, .enqueue 2, .enqueue 3, .enqueue 4, .enqueue 5, .recv 0 false,
    .safeStop (10 * Millisecond), .overTimer, .quit 0, .waitReturns]

/-- As `stopActions` with `SafeStop(0)`, called when the queue is empty. -/
def safeStopActions : List (Action Nat) :=
  [.enqueue 1, .enqueue 2, .recv 0 false, .recv 0 false, .safeStop 0, .quit 0, .waitReturns]

/-! ## Field lemmas -/

section FieldLemmas

variable {α ε : Type}

theorem take_set_succ (a : List α) (n : Nat) (x : α) (h : n < a.length) :
    (a.set n x).take (n + 1) = a.take n ++ [x] := by
  induction a generalizing n with
  | nil => simp at h
  | cons y ys ih =>
    cases n with
    | zero => simp
    | succ m =>
      have hm : m < ys.length := by simpa using h
      simp [List.set, ih m hm]

theorem read_append (heap : List (List α)) (s : Slice) (x : α)
    (h : s.len ≤ (heap.getD s.arr []).length) :
    (Slice.append heap s x).2.read (Slice.append heap s x).1 = s.read heap ++ [x] := by
  unfold Slice.append Slice.read
  by_cases hlt : s.len < (heap.getD s.arr []).length
  · have harr : s.arr < heap.length := by
      by_contra hc
      have hnone : heap[s.arr]? = none := List.getElem?_eq_none (Nat.le_of_not_lt hc)
      simp [List.getD, hnone] at hlt
    simp only [hlt, if_true]
    have : (heap.set s.arr ((heap.getD s.arr []).set s.len x)).getD s.arr []
        = (heap.getD s.arr []).set s.len x := by
      simp [List.getD, List.getElem?_set, harr]
    rw [this]
    exact take_set_succ _ _ _ hlt
  · simp only [hlt, if_false]
    have hlen : (heap.getD s.arr []).length = s.len := by omega
    have : (heap ++ [List.take s.len (heap.getD s.arr []) ++ [x]]).getD heap.length []
        = List.take s.len (heap.getD s.arr []) ++ [x] := by
      simp [List.getD]
    rw [this]
    exact List.take_of_length_le (by simp)

theorem append_len (heap : List (List α)) (s : Slice) (x : α) :
    (Slice.append heap s x).2.len = s.len + 1 := by
  simp only [Slice.append]
  split <;> rfl

variable (option : AggregatorOption) (bp : BatchProcessFunc α ε) (w : Worker α ε) (items : Slice)

theorem batchProcess_calls :
    (batchProcess option bp w items).calls = w.calls ++ [items.read w.heap] := by
  simp only [batchProcess, batchProcessDone, batchProcessCall, batchProcessAdd]
  split <;> [split; skip] <;> rfl

theorem batchProcess_heap : (batchProcess option bp w items).heap = w.heap := by
  simp only [batchProcess, batchProcessDone, batchProcessCall, batchProcessAdd]
  split <;> [split; skip] <;> rfl

theorem batchProcess_batch : (batchProcess option bp w items).batch = w.batch := by
  simp only [batchProcess, batchProcessDone, batchProcessCall, batchProcessAdd]
  split <;> [split; skip] <;> rfl

theorem batchProcess_status : (batchProcess option bp w items).status = w.status := by
  simp only [batchProcess, batchProcessDone, batchProcessCall, batchProcessAdd]
  split <;> [split; skip] <;> rfl

theorem batchProcess_delayTimer : (batchProcess option bp w items).delayTimer = w.delayTimer := by
  simp only [batchProcess, batchProcessDone, batchProcessCall, batchProcessAdd]
  split <;> [split; skip] <;> rfl

theorem batchProcess_wg : (batchProcess option bp w items).wg = w.wg := by
  simp only [batchProcess, batchProcessDone, batchProcessCall, batchProcessAdd]
  split <;> [split; skip] <;> simp

end FieldLemmas

/-! ## The branches of the select -/

section Branches

variable {α ε : Type}

theorem Timer.Ready.expire {t : Timer} {d : Int} (h : t.Ready d) : t.expire.Ready d := by
  rcases h with h | h <;> subst h <;> simp [Timer.expire, Timer.Ready]

theorem append_cap (heap : List (List α)) (s : Slice) (x : α)
    (h : s.len < (heap.getD s.arr []).length) :
    ((Slice.append heap s x).1.getD (Slice.append heap s x).2.arr []).length
      = (heap.getD s.arr []).length := by
  have harr : s.arr < heap.length := by
    by_contra hc
    have hnone : heap[s.arr]? = none := List.getElem?_eq_none (Nat.le_of_not_lt hc)
    simp [List.getD, hnone] at h
  simp only [Slice.append, h, if_true]
  simp [List.getD, List.getElem?_set, harr]

variable (option : AggregatorOption) (bp : BatchProcessFunc α ε) (w : Worker α ε)

theorem onItem_below (req : α) (fired : Bool)
    (h : ((Slice.append w.heap w.batch req).2.len : Int) < option.BatchSize) :
    onItem option bp w req fired
      = { w with heap := (Slice.append w.heap w.batch req).1,
                 batch := (Slice.append w.heap w.batch req).2 } := by
  simp only [onItem, h, if_true]

theorem onItem_reached (req : α) (fired : Bool)
    (h : ¬ ((Slice.append w.heap w.batch req).2.len : Int) < option.BatchSize)
    (ht : w.delayTimer.Ready option.DelayTime) :
    onItem option bp w req fired
      = { batchProcess option bp
            { w with heap := (Slice.append w.heap w.batch req).1,
                     batch := (Slice.append w.heap w.batch req).2 }
            (Slice.append w.heap w.batch req).2 with
          delayTimer := ⟨true, false, option.DelayTime⟩,
          batch := ⟨(Slice.append w.heap w.batch req).2.arr, 0⟩ } := by
  simp only [onItem, h, if_false, batchProcess_delayTimer, batchProcess_batch]
  rcases ht with ht | ht <;> rw [ht] <;> cases fired <;>
    simp [Timer.expire, Timer.Stop, Timer.recv, Timer.Reset]

theorem onTimer_eq (t : Timer) :
    onTimer option bp w t
      = if w.batch.len > 0 then
          { batchProcess option bp { w with delayTimer := t } w.batch with
            batch := ⟨w.batch.arr, 0⟩, delayTimer := t.Reset option.DelayTime }
        else { w with delayTimer := t.Reset option.DelayTime } := by
  simp only [onTimer]
  split <;> simp [batchProcess_delayTimer, batchProcess_batch]

end Branches

/-! ## Preservation of the invariants -/

section Invariants

variable {α ε : Type}

theorem recv_reset {t u : Timer} (d : Int) (h : t.recv = some u) :
    u.Reset d = ⟨true, false, d⟩ := by
  unfold Timer.recv at h
  split at h
  · cases h
    rfl
  · cases h

theorem read_length (heap : List (List α)) (s : Slice)
    (h : s.len ≤ (heap.getD s.arr []).length) : (s.read heap).length = s.len := by
  rw [Slice.read, List.length_take]
  exact Nat.min_eq_left h

variable (option : AggregatorOption) (bp : BatchProcessFunc α ε)

theorem workInit_sound [Inhabited α] :
    Sound option (workInit option (0 + 1) : Worker α ε) := by
  unfold workInit Sound
  split <;> simp [Timer.Ready, Timer.NewTimer]

theorem workInit_bounded [Inhabited α] (hb : 0 < option.BatchSize) :
    Bounded option (workInit option (0 + 1) : Worker α ε) := by
  unfold workInit Bounded
  split <;> simp [hb]

theorem workInit_of_waiting [Inhabited α] (k : Int)
    (h : (workInit option k : Worker α ε).status = .waiting) :
    makeslicePanics option.BatchSize = false := by
  unfold workInit at h
  split at h
  · cases h
  next hn => simpa using hn

theorem workStep_status_of_waiting (w : Worker α ε) (e : Event α)
    (h : (workStep option bp w e).status = .waiting) : w.status = .waiting := by
  cases e with
  | expire => simpa [workStep] using h
  | handlerDone i => simpa [workStep] using h
  | item req fired =>
    simp only [workStep] at h
    split at h
    · assumption
    · exact h
  | timer =>
    simp only [workStep] at h
    split at h
    · assumption
    · exact h
  | quit =>
    simp only [workStep] at h
    split at h
    · assumption
    · exact h

theorem workStep_sound (w : Worker α ε) (e : Event α) (hs : Sound option w) :
    Sound option (workStep option bp w e) := by
  obtain ⟨hnb, hready, hwg⟩ := hs
  cases e with
  | expire => exact ⟨hnb, fun h => (hready h).expire, hwg⟩
  | handlerDone i => exact ⟨hnb, hready, hwg⟩
  | item req fired =>
    simp only [workStep]
    split
    next hw =>
      by_cases hlt : ((Slice.append w.heap w.batch req).2.len : Int) < option.BatchSize
      · rw [onItem_below option bp w req fired hlt]
        exact ⟨hnb, hready, hwg⟩
      · rw [onItem_reached option bp w req fired hlt (hready hw)]
        simp [Sound, batchProcess_status, batchProcess_wg, hw, Timer.Ready, hwg]
    next => exact ⟨hnb, hready, hwg⟩
  | timer =>
    simp only [workStep]
    split
    next hw =>
      split
      next t ht =>
        have hr := recv_reset option.DelayTime ht
        rw [onTimer_eq]
        split <;> simp [Sound, batchProcess_status, batchProcess_wg, hw, Timer.Ready, hwg, hr]
      next => exact ⟨hnb, hready, hwg⟩
    next => exact ⟨hnb, hready, hwg⟩
  | quit =>
    simp only [workStep]
    split
    next hw =>
      simp only [onQuit]
      split <;> simp [Sound, batchProcess_wg, hwg, hw]
    next => exact ⟨hnb, hready, hwg⟩

theorem work_snoc [Inhabited α] (events : List (Event α)) (e : Event α) :
    work option bp (events ++ [e]) = workStep option bp (work option bp events) e := by
  simp [work, List.foldl_append]

theorem work_sound [Inhabited α] (events : List (Event α)) :
    Sound option (work option bp events) := by
  induction events using List.reverseRecOn with
  | nil => exact workInit_sound option
  | append_singleton es e ih =>
    rw [work_snoc]
    exact workStep_sound option bp _ e ih

theorem received_snoc (events : List (Event α)) (e : Event α) :
    received (events ++ [e]) = received events ++ received [e] := by
  induction events with
  | nil => simp [received]
  | cons x xs ih => cases x <;> simp [received, ih]

theorem cap_int {w : Worker α ε} (hb : 0 < option.BatchSize)
    (hcap : (w.heap.getD w.batch.arr []).length = option.BatchSize.toNat) :
    ((w.heap.getD w.batch.arr []).length : Int) = option.BatchSize := by
  rw [hcap]
  exact Int.toNat_of_nonneg (le_of_lt hb)

theorem workStep_bounded (w : Worker α ε) (e : Event α) (hb : 0 < option.BatchSize)
    (hs : Sound option w) (hB : Bounded option w) : Bounded option (workStep option bp w e) := by
  obtain ⟨hcalls, hwait⟩ := hB
  cases e with
  | expire => exact ⟨hcalls, hwait⟩
  | handlerDone i => exact ⟨hcalls, hwait⟩
  | item req fired =>
    simp only [workStep]
    split
    next hw =>
      obtain ⟨hcap, hlen⟩ := hwait hw
      have hcapI := cap_int option hb hcap
      have hlt : w.batch.len < (w.heap.getD w.batch.arr []).length := by omega
      have hA := append_cap w.heap w.batch req hlt
      have hL := append_len w.heap w.batch req
      by_cases hsm : ((Slice.append w.heap w.batch req).2.len : Int) < option.BatchSize
      · rw [onItem_below option bp w req fired hsm]
        exact ⟨hcalls, fun _ => ⟨hA.trans hcap, hsm⟩⟩
      · rw [onItem_reached option bp w req fired hsm (hs.2.1 hw)]
        refine ⟨?_, fun _ => ⟨?_, ?_⟩⟩
        · intro c hc
          simp only [batchProcess_calls, List.mem_append, List.mem_singleton] at hc
          rcases hc with hc | hc
          · exact hcalls c hc
          · rw [hc, read_append w.heap w.batch req (le_of_lt hlt), List.length_append,
              read_length w.heap w.batch (le_of_lt hlt)]
            simp only [List.length_singleton]
            omega
        · simp only [batchProcess_heap]
          exact hA.trans hcap
        · simpa using hb
    next => exact ⟨hcalls, hwait⟩
  | timer =>
    simp only [workStep]
    split
    next hw =>
      obtain ⟨hcap, hlen⟩ := hwait hw
      have hcapI := cap_int option hb hcap
      have hle : w.batch.len ≤ (w.heap.getD w.batch.arr []).length := by omega
      split
      next t ht =>
        rw [onTimer_eq]
        split
        next hpos =>
          refine ⟨?_, fun _ => ⟨?_, ?_⟩⟩
          · intro c hc
            simp only [batchProcess_calls, List.mem_append, List.mem_singleton] at hc
            rcases hc with hc | hc
            · exact hcalls c hc
            · rw [hc, read_length w.heap w.batch hle]
              omega
          · simpa [batchProcess_heap] using hcap
          · simpa using hb
        next => exact ⟨hcalls, fun _ => ⟨hcap, hlen⟩⟩
      next => exact ⟨hcalls, hwait⟩
    next => exact ⟨hcalls, hwait⟩
  | quit =>
    simp only [workStep]
    split
    next hw =>
      obtain ⟨hcap, hlen⟩ := hwait hw
      have hcapI := cap_int option hb hcap
      have hle : w.batch.len ≤ (w.heap.getD w.batch.arr []).length := by omega
      simp only [onQuit]
      refine ⟨?_, fun h => by simp at h⟩
      split
      next hne =>
        intro c hc
        simp only [batchProcess_calls, List.mem_append, List.mem_singleton] at hc
        rcases hc with hc | hc
        · exact hcalls c hc
        · rw [hc, read_length w.heap w.batch hle]
          omega
      next => exact hcalls
    next => exact ⟨hcalls, hwait⟩

theorem work_bounded [Inhabited α] (hb : 0 < option.BatchSize) (events : List (Event α)) :
    Bounded option (work option bp events) := by
  induction events using List.reverseRecOn with
  | nil => exact workInit_bounded option hb
  | append_singleton es e ih =>
    rw [work_snoc]
    exact workStep_bounded option bp _ e hb (work_sound option bp es) ih

/-- While the worker stays at the select, one event extends "flushed items followed by
pending items" by exactly the item the event delivered, if any. -/
theorem workStep_content (w : Worker α ε) (e : Event α) (hb : 0 < option.BatchSize)
    (hs : Sound option w) (hB : Bounded option w)
    (hw2 : (workStep option bp w e).status = .waiting) :
    (workStep option bp w e).calls.flatten ++ (workStep option bp w e).pending
      = w.calls.flatten ++ w.pending ++ received [e] := by
  have hw := workStep_status_of_waiting option bp w e hw2
  obtain ⟨hcap, hlen⟩ := hB.2 hw
  have hcapI := cap_int option hb hcap
  have hlt : w.batch.len < (w.heap.getD w.batch.arr []).length := by omega
  cases e with
  | expire => simp [workStep, received, Worker.pending]
  | handlerDone i => simp [workStep, received, Worker.pending]
  | item req fired =>
    simp only [workStep, hw, received]
    by_cases hsm : ((Slice.append w.heap w.batch req).2.len : Int) < option.BatchSize
    · rw [onItem_below option bp w req fired hsm]
      simp only [Worker.pending, read_append w.heap w.batch req (le_of_lt hlt)]
      simp
    · rw [onItem_reached option bp w req fired hsm (hs.2.1 hw)]
      simp only [Worker.pending, batchProcess_calls, batchProcess_heap,
        read_append w.heap w.batch req (le_of_lt hlt)]
      simp [Slice.read]
  | timer =>
    simp only [workStep, hw, received]
    split
    next t ht =>
      rw [onTimer_eq]
      split
      · simp [Worker.pending, batchProcess_calls, batchProcess_heap, Slice.read]
      · simp [Worker.pending]
    next => simp
  | quit =>
    simp [workStep, hw, onQuit] at hw2

theorem work_content [Inhabited α] (hb : 0 < option.BatchSize) (events : List (Event α))
    (hw : (work option bp events).status = .waiting) :
    (work option bp events).calls.flatten ++ (work option bp events).pending
      = received events := by
  induction events using List.reverseRecOn with
  | nil =>
    have hn := workInit_of_waiting option (0 + 1) hw
    simp [work, workInit, hn, received, Worker.pending, Slice.read]
  | append_singleton es e ih =>
    rw [work_snoc] at hw ⊢
    have hprev := workStep_status_of_waiting option bp _ e hw
    rw [workStep_content option bp _ e hb (work_sound option bp es)
      (work_bounded option bp hb es) hw, ih hprev, received_snoc]

end Invariants

/-! ## Further lemmas -/

section Further

variable {α ε : Type}

theorem applyOptionFuncs_untouched {β : Type} (proj : AggregatorOption → β)
    (optionFuncs : List SetAggregatorOptionFunc) (option : AggregatorOption)
    (h : ∀ f ∈ optionFuncs, ∀ o, proj (f o) = proj o) :
    proj (applyOptionFuncs option optionFuncs) = proj option := by
  induction optionFuncs generalizing option with
  | nil => rfl
  | cons f fs ih =>
    have h1 : ∀ g ∈ fs, ∀ o, proj (g o) = proj o := fun g hg => h g (List.mem_cons_of_mem f hg)
    have h2 := ih (f option) h1
    simp only [applyOptionFuncs, List.foldl_cons] at h2 ⊢
    rw [h2]
    exact h f (List.mem_cons_self f fs) option

theorem floorChannelBufferSize_spec (o : AggregatorOption) :
    (floorChannelBufferSize o).ChannelBufferSize ≥ (floorChannelBufferSize o).Workers ∧
    (o.ChannelBufferSize < o.Workers → (floorChannelBufferSize o).ChannelBufferSize = o.Workers) ∧
    (o.Workers ≤ o.ChannelBufferSize →
      (floorChannelBufferSize o).ChannelBufferSize = o.ChannelBufferSize) ∧
    (floorChannelBufferSize o).BatchSize = o.BatchSize ∧
    (floorChannelBufferSize o).Workers = o.Workers ∧
    (floorChannelBufferSize o).DelayTime = o.DelayTime := by
  unfold floorChannelBufferSize
  split
  · refine ⟨le_refl _, fun _ => rfl, fun h => ?_, rfl, rfl, rfl⟩
    simp only
    omega
  · refine ⟨?_, fun h => ?_, fun _ => rfl, rfl, rfl, rfl⟩ <;> omega

variable (option : AggregatorOption) (bp : BatchProcessFunc α ε)

theorem workStep_keeps_waiting (w : Worker α ε) (e : Event α) (hs : Sound option w)
    (hw : w.status = .waiting) (he : e ≠ .quit) :
    (workStep option bp w e).status = .waiting := by
  cases e with
  | expire => simpa [workStep] using hw
  | handlerDone i => simpa [workStep] using hw
  | item req fired =>
    simp only [workStep, hw]
    by_cases hsm : ((Slice.append w.heap w.batch req).2.len : Int) < option.BatchSize
    · rw [onItem_below option bp w req fired hsm]
      exact hw
    · rw [onItem_reached option bp w req fired hsm (hs.2.1 hw)]
      simpa [batchProcess_status] using hw
  | timer =>
    simp only [workStep, hw]
    split
    · rw [onTimer_eq]
      split
      · simpa [batchProcess_status] using hw
      · exact hw
    · exact hw
  | quit => exact absurd rfl he

theorem work_waiting [Inhabited α] (events : List (Event α))
    (hlive : (work option bp []).status = .waiting)
    (hq : ∀ e ∈ events, e ≠ .quit) : (work option bp events).status = .waiting := by
  induction events using List.reverseRecOn with
  | nil => exact hlive
  | append_singleton es e ih =>
    rw [work_snoc]
    refine workStep_keeps_waiting option bp _ e (work_sound option bp es) (ih ?_) ?_
    · exact fun x hx => hq x (List.mem_append_left _ hx)
    · exact hq e (by simp)

/-- Once the worker has returned, events other than a handler returning leave the
whole state as it is. -/
theorem workStep_returned (w : Worker α ε) (e : Event α) (hw : w.status = .returned)
    (ht : w.delayTimer.active = false) (he : ∀ i, e ≠ .handlerDone i) :
    workStep option bp w e = w := by
  cases e with
  | expire => simp [workStep, Timer.expire, ht]
  | handlerDone i => exact absurd rfl (he i)
  | item req fired => simp [workStep, hw]
  | timer => simp [workStep, hw]
  | quit => simp [workStep, hw]

theorem onQuit_status (w : Worker α ε) : (onQuit option bp w).status = .returned := by
  simp only [onQuit]

theorem onQuit_timer (w : Worker α ε) : (onQuit option bp w).delayTimer.active = false := by
  simp only [onQuit, Timer.Stop]

end Further

/-! ## The started aggregator: invariants -/

section EngineLemmas

variable {α ε : Type}

theorem sum_map_set (f : Worker α ε → Int) (l : List (Worker α ε)) (i : Nat)
    (a b : Worker α ε) (h : l[i]? = some a) :
    ((l.set i b).map f).sum = (l.map f).sum - f a + f b := by
  induction l generalizing i with
  | nil => simp at h
  | cons x xs ih =>
    cases i with
    | zero =>
      simp only [List.getElem?_cons_zero, Option.some.injEq] at h
      subst h
      simp only [List.set_cons_zero, List.map_cons, List.sum_cons]
      omega
    | succ n =>
      simp only [List.getElem?_cons_succ] at h
      simp only [List.set_cons_succ, List.map_cons, List.sum_cons, ih n h]
      omega

theorem loop_nonneg (w : Worker α ε) : 0 ≤ w.loop := by
  unfold Worker.loop
  split <;> omega

theorem sum_loop_nonneg (l : List (Worker α ε)) : 0 ≤ (l.map Worker.loop).sum := by
  induction l with
  | nil => simp
  | cons x xs ih =>
    have := loop_nonneg x
    simp only [List.map_cons, List.sum_cons]
    omega

theorem none_waiting_of_sum (l : List (Worker α ε)) (h : (l.map Worker.loop).sum = 0) :
    ∀ w ∈ l, w.status ≠ .waiting := by
  induction l with
  | nil => simp
  | cons x xs ih =>
    have h1 := loop_nonneg x
    have h2 := sum_loop_nonneg xs
    simp only [List.map_cons, List.sum_cons] at h
    intro w hw
    rcases List.mem_cons.mp hw with rfl | hw
    · intro hs
      have : w.loop = 1 := by simp [Worker.loop, hs]
      omega
    · exact ih (by omega) w hw

theorem sum_of_none_waiting (l : List (Worker α ε)) (h : ∀ w ∈ l, w.status ≠ .waiting) :
    (l.map Worker.loop).sum = 0 := by
  induction l with
  | nil => simp
  | cons x xs ih =>
    have hx : x.loop = 0 := by simp [Worker.loop, h x (List.mem_cons_self x xs)]
    simp only [List.map_cons, List.sum_cons, hx,
      ih (fun w hw => h w (List.mem_cons_of_mem x hw))]
    rfl

variable (option : AggregatorOption) (bp : BatchProcessFunc α ε)

theorem workInit_live [Inhabited α] (k : Int) : Live option (workInit option k : Worker α ε) := by
  unfold workInit Live
  split <;> simp [Timer.Ready, Timer.NewTimer]

theorem workInit_wg [Inhabited α] (k : Int) :
    (workInit option k : Worker α ε).wg - (workInit option k : Worker α ε).loop = k - 1 := by
  unfold workInit Worker.loop
  split <;> simp

theorem workStep_live (w : Worker α ε) (e : Event α) (h : Live option w) :
    Live option (workStep option bp w e) := by
  obtain ⟨hnb, hready⟩ := h
  cases e with
  | expire => exact ⟨hnb, fun h => (hready h).expire⟩
  | handlerDone i => exact ⟨hnb, hready⟩
  | item req fired =>
    simp only [workStep]
    split
    next hw =>
      by_cases hlt : ((Slice.append w.heap w.batch req).2.len : Int) < option.BatchSize
      · rw [onItem_below option bp w req fired hlt]
        exact ⟨hnb, hready⟩
      · rw [onItem_reached option bp w req fired hlt (hready hw)]
        simp [Live, batchProcess_status, hw, Timer.Ready]
    next => exact ⟨hnb, hready⟩
  | timer =>
    simp only [workStep]
    split
    next hw =>
      split
      next t ht =>
        have hr := recv_reset option.DelayTime ht
        rw [onTimer_eq]
        split <;> simp [Live, batchProcess_status, hw, Timer.Ready, hr]
      next => exact ⟨hnb, hready⟩
    next => exact ⟨hnb, hready⟩
  | quit =>
    simp only [workStep]
    split
    next hw =>
      simp only [onQuit]
      split <;> simp [Live]
    next => exact ⟨hnb, hready⟩

/-- An event changes the counter exactly as it changes whether the loop runs. -/
theorem workStep_wg (w : Worker α ε) (e : Event α) (h : Live option w) :
    (workStep option bp w e).wg - (workStep option bp w e).loop = w.wg - w.loop := by
  obtain ⟨hnb, hready⟩ := h
  cases e with
  | expire => simp [workStep, Worker.loop]
  | handlerDone i => simp [workStep, Worker.loop]
  | item req fired =>
    simp only [workStep]
    split
    next hw =>
      by_cases hlt : ((Slice.append w.heap w.batch req).2.len : Int) < option.BatchSize
      · rw [onItem_below option bp w req fired hlt]
        simp [Worker.loop]
      · rw [onItem_reached option bp w req fired hlt (hready hw)]
        simp [Worker.loop, batchProcess_status, batchProcess_wg, hw]
    next => rfl
  | timer =>
    simp only [workStep]
    split
    next hw =>
      split
      next t ht =>
        rw [onTimer_eq]
        split <;> simp [Worker.loop, batchProcess_status, batchProcess_wg, hw]
      next => rfl
    next => rfl
  | quit =>
    simp only [workStep]
    split
    next hw =>
      simp only [onQuit]
      split <;> simp [Worker.loop, batchProcess_wg, hw]
    next => rfl

theorem workerStep_inv (en : Engine α ε) (index : Nat) (e : Event α) (h : EngineInv en) :
    EngineInv (en.workerStep index e) := by
  obtain ⟨hwg, hlive, hret⟩ := h
  unfold Engine.workerStep
  cases hget : en.workers[index]? with
  | none => exact ⟨hwg, hlive, hret⟩
  | some w =>
    have hmem : w ∈ en.workers := List.getElem?_mem hget
    have hl0 : Live en.agt.option ({ w with wg := en.agt.wg } : Worker α ε) := hlive w hmem
    have hl1 := workStep_live en.agt.option en.agt.batchProcessor _ e hl0
    have hw1 := workStep_wg en.agt.option en.agt.batchProcessor _ e hl0
    have hsum := sum_map_set Worker.loop en.workers index w
      (workStep en.agt.option en.agt.batchProcessor { w with wg := en.agt.wg } e) hget
    have hloop : ({ w with wg := en.agt.wg } : Worker α ε).loop = w.loop := rfl
    refine ⟨?_, ?_, ?_⟩
    · simp only [Engine.running] at hwg ⊢
      simp only [hsum]
      simp only [hloop] at hw1
      omega
    · intro x hx
      rcases List.mem_or_eq_of_mem_set hx with hx | hx
      · exact hlive x hx
      · rw [hx]
        exact hl1
    · intro hc x hx
      rcases List.mem_or_eq_of_mem_set hx with hx | hx
      · exact hret hc x hx
      · rw [hx]
        intro hs
        have hs0 : ({ w with wg := en.agt.wg } : Worker α ε).status = .waiting :=
          workStep_status_of_waiting _ _ _ e hs
        exact hret hc w hmem hs0

theorem closeQuit_inv (en : Engine α ε) (h : EngineInv en) : EngineInv (closeQuit en) :=
  ⟨h.1, h.2.1, fun hc => by cases hc⟩

theorem engineStep_inv (en : Engine α ε) (a : Action α) (h : EngineInv en) :
    EngineInv (engineStep en a) := by
  cases a with
  | enqueue item =>
    simp only [engineStep, trySend]
    split
    next agt hagt =>
      split at hagt
      · cases hagt
        exact h
      · cases hagt
    next => exact h
  | recv index fired =>
    simp only [engineStep]
    split
    next req rest w hq hw =>
      split
      · exact workerStep_inv _ index _ h
      · exact h
    next => exact h
  | expire index => exact workerStep_inv en index _ h
  | timer index => exact workerStep_inv en index _ h
  | quit index =>
    simp only [engineStep]
    split
    · exact workerStep_inv en index _ h
    · exact h
  | handlerDone index i => exact workerStep_inv en index _ h
  | stop =>
    simp only [engineStep, Stop]
    split
    · exact closeQuit_inv en h
    · exact h
  | safeStop timeout =>
    simp only [engineStep, SafeStop]
    split
    · split
      · exact closeQuit_inv en h
      · exact ⟨h.1, h.2.1, fun hc => by cases hc⟩
    · exact h
  | tick =>
    simp only [engineStep, SafeStop_tick]
    split
    · split
      · exact closeQuit_inv en h
      · exact h
    · exact h
  | overTimer =>
    simp only [engineStep, SafeStop_overTimer]
    split
    · split
      · exact closeQuit_inv en h
      · exact h
    · exact h
  | waitReturns =>
    simp only [engineStep, Wait_returns]
    split
    · split
      next hz =>
        refine ⟨h.1, h.2.1, fun _ => ?_⟩
        exact none_waiting_of_sum en.workers (by rw [← hz]; exact h.1.symm)
      · exact h
    · exact h

theorem spawnWorker_inv [Inhabited α] (en : Engine α ε)
    (h : EngineInv en ∧ en.caller = .absent) :
    EngineInv (spawnWorker en) ∧ (spawnWorker en).caller = .absent := by
  obtain ⟨⟨hwg, hlive, _⟩, hc⟩ := h
  have hw := workInit_wg (α := α) (ε := ε) en.agt.option (en.agt.wg + 1)
  refine ⟨⟨?_, ?_, ?_⟩, hc⟩
  · simp only [spawnWorker, Engine.running, List.map_append, List.sum_append, List.map_cons,
      List.map_nil, List.sum_cons, List.sum_nil]
    simp only [Engine.running] at hwg
    omega
  · intro x hx
    simp only [spawnWorker, List.mem_append, List.mem_singleton] at hx
    rcases hx with hx | hx
    · exact hlive x hx
    · rw [hx]
      exact workInit_live en.agt.option _
  · intro hr
    simp only [spawnWorker] at hr
    rw [hc] at hr
    cases hr

theorem Start_inv [Inhabited α] (agt : Aggregator α ε) (h : agt.wg = 0) :
    EngineInv (Start agt) := by
  have key : ∀ (l : List Nat) (en : Engine α ε), EngineInv en ∧ en.caller = .absent →
      EngineInv (l.foldl (fun en _ => spawnWorker en) en) ∧
        (l.foldl (fun en _ => spawnWorker en) en).caller = .absent := by
    intro l
    induction l with
    | nil => exact fun en h => h
    | cons x xs ih => exact fun en h => ih _ (spawnWorker_inv en h)
  refine (key _ _ ⟨⟨?_, ?_, ?_⟩, rfl⟩).1
  · simpa [Engine.running] using h
  · intro w hw
    cases hw
  · intro hc
    cases hc

theorem run_inv [Inhabited α] (agt : Aggregator α ε) (h : agt.wg = 0)
    (actions : List (Action α)) : EngineInv (run agt actions) := by
  induction actions using List.reverseRecOn with
  | nil => exact Start_inv agt h
  | append_singleton as a ih =>
    simp only [run, List.foldl_append, List.foldl_cons, List.foldl_nil] at ih ⊢
    exact engineStep_inv _ a ih

theorem NewAggregator_wg (numCPU : Int) (optionFuncs : List SetAggregatorOptionFunc)
    (agt : Aggregator α ε) (h : NewAggregator numCPU bp optionFuncs = some agt) :
    agt.wg = 0 := by
  simp only [NewAggregator] at h
  split at h
  · cases h
  · cases h
    rfl

theorem batchProcessCall_wg (w : Worker α ε) (items : Slice) :
    (batchProcessCall option bp w items).wg = w.wg := by
  simp only [batchProcessCall]
  split <;> [split; skip] <;> rfl

end EngineLemmas

/-! ## Construction and intake -/

section Construction

variable {α ε : Type}

/-- C6: for every list of option setters, with `set` the option the setters leave
when applied in order to the defaults (10, CPU count, buffer 20, one second),
`NewAggregator` constructs an aggregator exactly when the floored buffer size is a
capacity `make` accepts (not negative, at most `(2^48 - 96) / 16` items), and the
option it then holds has `ChannelBufferSize ≥ Workers`: a value left below `Workers`
is replaced by exactly `Workers`, any other value is kept; `BatchSize`, `Workers` and
`DelayTime` are exactly the values left by the setters, which are the defaults for
every field that no setter changes. -/
theorem NewAggregator_option (numCPU : Int) (bp : BatchProcessFunc α ε)
    (optionFuncs : List SetAggregatorOptionFunc) (set : AggregatorOption)
    (hset : set = optionFuncs.foldl (fun o f => f o)
      { BatchSize := 10, Workers := numCPU, ChannelBufferSize := 20,
        DelayTime := 1000000000, ErrorHandler := none, logger := DefaultLogger,
        debug := false }) :
    ((∃ agt, NewAggregator numCPU bp optionFuncs = some agt) ↔
      (0 ≤ max set.ChannelBufferSize set.Workers ∧
        16 * max set.ChannelBufferSize set.Workers ≤ 281474976710656 - 96)) ∧
    (∀ agt, NewAggregator numCPU bp optionFuncs = some agt →
      agt.option.ChannelBufferSize ≥ agt.option.Workers ∧
      (set.ChannelBufferSize < set.Workers → agt.option.ChannelBufferSize = set.Workers) ∧
      (set.Workers ≤ set.ChannelBufferSize →
        agt.option.ChannelBufferSize = set.ChannelBufferSize) ∧
      agt.option.BatchSize = set.BatchSize ∧
      agt.option.Workers = set.Workers ∧
      agt.option.DelayTime = set.DelayTime ∧
      agt.sendQ = [] ∧ agt.quit = false ∧ agt.wg = 0) ∧
    ((∀ f ∈ optionFuncs, ∀ o, (f o).BatchSize = o.BatchSize) → set.BatchSize = 10) ∧
    ((∀ f ∈ optionFuncs, ∀ o, (f o).Workers = o.Workers) → set.Workers = numCPU) ∧
    ((∀ f ∈ optionFuncs, ∀ o, (f o).DelayTime = o.DelayTime) →
      set.DelayTime = 1000000000) ∧
    ((∀ f ∈ optionFuncs, ∀ o, (f o).ChannelBufferSize = o.ChannelBufferSize) →
      set.ChannelBufferSize = 20) := by
  have ho : set = applyOptionFuncs (defaultOption numCPU) optionFuncs := by
    rw [hset]
    rfl
  obtain ⟨hge, hlt, hle, hB, hW, hD⟩ := floorChannelBufferSize_spec set
  have hmax : (floorChannelBufferSize set).ChannelBufferSize
      = max set.ChannelBufferSize set.Workers := by
    rcases lt_or_le set.ChannelBufferSize set.Workers with h | h
    · rw [hlt h, max_eq_right (le_of_lt h)]
    · rw [hle h, max_eq_left h]
  have hnew : NewAggregator numCPU bp optionFuncs
      = if makechanPanics (floorChannelBufferSize set).ChannelBufferSize then none
        else some
          { sendQ := [], option := floorChannelBufferSize set, quit := false, wg := 0,
            batchProcessor := bp } := by
    rw [ho]
    rfl
  have hpanic : makechanPanics (floorChannelBufferSize set).ChannelBufferSize = false ↔
      (0 ≤ max set.ChannelBufferSize set.Workers ∧
        16 * max set.ChannelBufferSize set.Workers ≤ 281474976710656 - 96) := by
    rw [hmax]
    simp only [makechanPanics, interfaceSize, maxAlloc, hchanSize, Bool.or_eq_false_iff,
      decide_eq_false_iff_not, not_lt]
  refine ⟨?_, ?_, ?_, ?_, ?_, ?_⟩
  · rw [hnew, ← hpanic]
    cases makechanPanics (floorChannelBufferSize set).ChannelBufferSize <;> simp
  · intro agt h
    rw [hnew] at h
    split at h
    · cases h
    · cases h
      exact ⟨hge, hlt, hle, hB, hW, hD, rfl, rfl, rfl⟩
  · intro h
    rw [ho]
    exact applyOptionFuncs_untouched (fun o => o.BatchSize) optionFuncs _ h
  · intro h
    rw [ho]
    exact applyOptionFuncs_untouched (fun o => o.Workers) optionFuncs _ h
  · intro h
    rw [ho]
    exact applyOptionFuncs_untouched (fun o => o.DelayTime) optionFuncs _ h
  · intro h
    rw [ho]
    exact applyOptionFuncs_untouched (fun o => o.ChannelBufferSize) optionFuncs _ h

/-- Witness of C6: `WithBatchSize(7), WithWorkerNum(8), WithChannelBufferSize(3)` on a
host with four CPUs gives batch size 7, 8 workers, the buffer raised from 3 to 8 and
the default delay of one second; without setters the option is (10, 4, 20, 1s), and on
a host with 32 CPUs the default buffer 20 is raised to 32; `WithWorkerNum(MaxInt64)`
makes `make` panic, so nothing is constructed. -/
theorem NewAggregator_option_witness :
    (∃ agt, NewAggregator 4 okProcessor
        [WithBatchSize 7, WithWorkerNum 8, WithChannelBufferSize 3] = some agt ∧
      agt.option.BatchSize = 7 ∧ agt.option.Workers = 8 ∧
      agt.option.ChannelBufferSize = 8 ∧ agt.option.DelayTime = 1000000000) ∧
    (NewAggregator 4 okProcessor []).map
        (fun agt => (agt.option.BatchSize, agt.option.Workers,
          agt.option.ChannelBufferSize, agt.option.DelayTime))
      = some (10, 4, 20, 1000000000) ∧
    (NewAggregator 32 okProcessor []).map (fun agt => agt.option.ChannelBufferSize)
      = some 32 ∧
    (NewAggregator 4 okProcessor [WithWorkerNum 9223372036854775807]).isSome = false ∧
    (NewAggregator 4 okProcessor [WithWorkerNum (-1), WithChannelBufferSize (-2)]).isSome
      = false := by
  have h := NewAggregator_option 4 okProcessor
    [WithBatchSize 7, WithWorkerNum 8, WithChannelBufferSize 3]
    { BatchSize := 7, Workers := 8, ChannelBufferSize := 3, DelayTime := 1000000000,
      ErrorHandler := none, logger := DefaultLogger, debug := false } (by decide)
  obtain ⟨agt, hagt⟩ := h.1.mpr (by decide)
  obtain ⟨_, h1, _, h2, h3, h4, _⟩ := h.2.1 agt hagt
  exact ⟨⟨agt, hagt, h2, h3, h1 (by decide), h4⟩, by decide, by decide, by decide, by decide⟩

/-- C7: `TryEnqueue` makes one send attempt, or two with one yield in between. It
returns true iff the first attempt, or after the yield the second, finds room, and
the item is then appended once at the tail of the queue as that attempt found it; it
returns false only after two attempts both found the queue at capacity, and the queue
is then what the other goroutines left during the yield, without the item. -/
theorem TryEnqueue_result (agt : Aggregator α ε) (item : α) (gosched : List α → List α) :
    (1 ≤ (TryEnqueue agt item gosched).attempts ∧
      (TryEnqueue agt item gosched).attempts ≤ 2) ∧
    ((TryEnqueue agt item gosched).ok = true ↔
      ((agt.sendQ.length : Int) < agt.option.ChannelBufferSize ∨
        ((gosched agt.sendQ).length : Int) < agt.option.ChannelBufferSize)) ∧
    ((agt.sendQ.length : Int) < agt.option.ChannelBufferSize →
      (TryEnqueue agt item gosched).ok = true ∧
      (TryEnqueue agt item gosched).attempts = 1 ∧
      (TryEnqueue agt item gosched).agt.sendQ = agt.sendQ ++ [item]) ∧
    (¬ (agt.sendQ.length : Int) < agt.option.ChannelBufferSize →
      ((gosched agt.sendQ).length : Int) < agt.option.ChannelBufferSize →
      (TryEnqueue agt item gosched).ok = true ∧
      (TryEnqueue agt item gosched).attempts = 2 ∧
      (TryEnqueue agt item gosched).agt.sendQ = gosched agt.sendQ ++ [item]) ∧
    ((TryEnqueue agt item gosched).ok = false →
      ¬ (agt.sendQ.length : Int) < agt.option.ChannelBufferSize ∧
      ¬ ((gosched agt.sendQ).length : Int) < agt.option.ChannelBufferSize ∧
      (TryEnqueue agt item gosched).attempts = 2 ∧
      (TryEnqueue agt item gosched).agt.sendQ = gosched agt.sendQ) ∧
    (TryEnqueue agt item gosched).agt.option = agt.option := by
  by_cases h1 : (agt.sendQ.length : Int) < agt.option.ChannelBufferSize
  · simp [TryEnqueue, trySend, h1]
  · by_cases h2 : ((gosched agt.sendQ).length : Int) < agt.option.ChannelBufferSize
    · simp [TryEnqueue, trySend, h1, h2]
    · simp [TryEnqueue, trySend, h1, h2]

end Construction

/-! ## The worker loop -/

section WorkerClaims

variable {α ε : Type}

/-- C1: size trigger. In every state the worker reaches with `BatchSize > 0` while at
the select, the pending batch is exactly the items received since the last flush
(received = flushed ++ pending) and an arriving item fits. If the arrival makes the
batch reach `BatchSize`, the processor is called exactly once in that step, with the
`BatchSize` pending items in arrival order followed by the new one, and the batch is
empty afterwards; if the batch stays below `BatchSize`, no call is made and the item
is appended. -/
theorem work_size_trigger [Inhabited α] (option : AggregatorOption) (bp : BatchProcessFunc α ε)
    (events : List (Event α)) (req : α) (fired : Bool)
    (hb : 0 < option.BatchSize) (hw : (work option bp events).status = .waiting) :
    received events
      = (work option bp events).calls.flatten ++ (work option bp events).pending ∧
    ((work option bp events).pending.length : Int) + 1 ≤ option.BatchSize ∧
    (((work option bp events).pending.length : Int) + 1 = option.BatchSize →
      (work option bp (events ++ [.item req fired])).calls
        = (work option bp events).calls ++ [(work option bp events).pending ++ [req]] ∧
      (((work option bp events).pending ++ [req]).length : Int) = option.BatchSize ∧
      (work option bp (events ++ [.item req fired])).pending = [] ∧
      (work option bp (events ++ [.item req fired])).batch.len = 0 ∧
      (work option bp (events ++ [.item req fired])).status = .waiting) ∧
    (((work option bp events).pending.length : Int) + 1 < option.BatchSize →
      (work option bp (events ++ [.item req fired])).calls = (work option bp events).calls ∧
      (work option bp (events ++ [.item req fired])).pending
        = (work option bp events).pending ++ [req] ∧
      (work option bp (events ++ [.item req fired])).status = .waiting) := by
  have hs := work_sound option bp events
  have hB := work_bounded option bp hb events
  have hc := work_content option bp hb events hw
  obtain ⟨hcap, hlen⟩ := hB.2 hw
  have hcapI := cap_int option hb hcap
  have hlt : (work option bp events).batch.len
      < ((work option bp events).heap.getD (work option bp events).batch.arr []).length := by
    omega
  have hpl : (work option bp events).pending.length = (work option bp events).batch.len :=
    read_length _ _ (le_of_lt hlt)
  have hL := append_len (work option bp events).heap (work option bp events).batch req
  have hR := read_append (work option bp events).heap (work option bp events).batch req
    (le_of_lt hlt)
  rw [work_snoc]
  simp only [workStep, hw]
  refine ⟨hc.symm, by omega, ?_, ?_⟩
  · intro heq
    have hsm : ¬ ((Slice.append (work option bp events).heap (work option bp events).batch
        req).2.len : Int) < option.BatchSize := by
      rw [hL]
      push_cast
      omega
    rw [onItem_reached option bp _ req fired hsm (hs.2.1 hw)]
    refine ⟨?_, ?_, ?_, rfl, ?_⟩
    · simp only [batchProcess_calls, hR, Worker.pending]
    · simp only [List.length_append, List.length_singleton]
      push_cast
      omega
    · simp [Worker.pending, Slice.read]
    · simpa [batchProcess_status] using hw
  · intro hl
    have hsm : ((Slice.append (work option bp events).heap (work option bp events).batch
        req).2.len : Int) < option.BatchSize := by
      rw [hL]
      push_cast
      omega
    rw [onItem_below option bp _ req fired hsm]
    exact ⟨rfl, hR, hw⟩

/-- Witness of C1 on the run of the repository test: after items `0..8` the tenth item
flushes `[0..9]`. -/
theorem work_size_trigger_witness :
    (work testOption okProcessor
      ((List.range 9).map (fun i => Event.item i false) ++ [.item 9 false])).calls
      = [[0, 1, 2, 3, 4, 5, 6, 7, 8, 9]] := by
  have h := (work_size_trigger testOption okProcessor
    ((List.range 9).map (fun i => Event.item i false)) 9 false (by decide) (by decide)).2.2.1
    (by decide)
  rw [h.1]
  decide

/-- C2: delay trigger. For every worker at the select whose timer has fired (the
branch `<-delayTimer.C` is selectable) and whose batch slice is well formed
(`len ≤ cap`): if the batch holds `k > 0` items, the processor is called exactly once
with these `k` pending items in order and the batch is empty afterwards; if the batch
is empty no call is made; in both cases the timer ends up re-armed with the duration
`DelayTime`, its channel empty, and the worker is back at the select. -/
theorem work_delay_trigger (option : AggregatorOption) (bp : BatchProcessFunc α ε)
    (w : Worker α ε) (hw : w.status = .waiting) (hC : w.delayTimer.C = true)
    (hwf : w.batch.len ≤ (w.heap.getD w.batch.arr []).length) :
    w.pending.length = w.batch.len ∧
    (0 < w.batch.len →
      (workStep option bp w .timer).calls = w.calls ++ [w.pending] ∧
      (workStep option bp w .timer).pending = [] ∧
      (workStep option bp w .timer).batch.len = 0) ∧
    (w.batch.len = 0 →
      (workStep option bp w .timer).calls = w.calls ∧
      (workStep option bp w .timer).pending = [] ∧
      (workStep option bp w .timer).batch.len = 0) ∧
    (workStep option bp w .timer).delayTimer = ⟨true, false, option.DelayTime⟩ ∧
    (workStep option bp w .timer).status = .waiting := by
  have hr : w.delayTimer.recv = some { w.delayTimer with C := false } := by
    simp [Timer.recv, hC]
  simp only [workStep, hw, hr, onTimer_eq]
  refine ⟨read_length _ _ hwf, ?_, ?_, ?_, ?_⟩
  · intro hpos
    simp [hpos, batchProcess_calls, batchProcess_heap, Worker.pending, Slice.read]
  · intro hz
    simp [hz, Worker.pending, Slice.read]
  · split <;> simp [Timer.Reset]
  · split <;> simp [batchProcess_status, hw]

/-- Witness of C2: two items pending under `BatchSize = 10` and `DelayTime` = 50ms,
the timer fires, the batch `[20, 21]` is flushed and the timer is armed again for
50ms with an empty channel. -/
theorem work_delay_trigger_witness :
    (workStep testOption okProcessor
      (work testOption okProcessor [.item 20 false, .item 21 false, .expire]) .timer).calls
      = [[20, 21]] ∧
    (work testOption okProcessor [.item 20 false, .item 21 false, .expire]).delayTimer
      = ⟨false, true, 50000000⟩ ∧
    (workStep testOption okProcessor
      (work testOption okProcessor [.item 20 false, .item 21 false, .expire])
      .timer).delayTimer = ⟨true, false, 50000000⟩ := by
  have h := work_delay_trigger testOption okProcessor
    (work testOption okProcessor [.item 20 false, .item 21 false, .expire])
    (by decide) (by decide) (by decide)
  refine ⟨?_, by decide, h.2.2.2.1⟩
  rw [(h.2.1 (by decide)).1]
  decide

/-- C3: shutdown drain. For every worker at the select, observing quit calls the
processor exactly once with the whole pending batch if the batch is non-empty and not
at all if it is empty; the worker has then returned, and no later sequence of item,
timer-expiry, timer or quit events changes anything of its state (so in particular
makes no further processor call). -/
theorem work_quit_drains (option : AggregatorOption) (bp : BatchProcessFunc α ε)
    (w : Worker α ε) (hw : w.status = .waiting) :
    (w.batch.len ≠ 0 → (workStep option bp w .quit).calls = w.calls ++ [w.pending]) ∧
    (w.batch.len = 0 → (workStep option bp w .quit).calls = w.calls) ∧
    (workStep option bp w .quit).status = .returned ∧
    (∀ later : List (Event α), (∀ e ∈ later, ∀ i, e ≠ .handlerDone i) →
      later.foldl (workStep option bp) (workStep option bp w .quit)
        = workStep option bp w .quit) := by
  simp only [workStep, hw]
  refine ⟨?_, ?_, onQuit_status option bp w, ?_⟩
  · intro hne
    simp [onQuit, hne, batchProcess_calls, Worker.pending]
  · intro hz
    simp [onQuit, hz]
  · intro later
    induction later with
    | nil => intro _; rfl
    | cons e es ih =>
      intro hl
      rw [List.foldl_cons, workStep_returned option bp _ e (onQuit_status option bp w)
        (onQuit_timer option bp w) (hl e (List.mem_cons_self e es))]
      exact ih (fun x hx => hl x (List.mem_cons_of_mem e hx))

/-- Witness of C3: quit with `[22..28]` pending flushes that batch once and later
events change nothing. -/
theorem work_quit_drains_witness :
    (work testOption okProcessor (testEvents ++ [.quit])).calls.getLast?
      = some [22, 23, 24, 25, 26, 27, 28] ∧
    [Event.item 29 false, .expire, .timer, .quit].foldl (workStep testOption okProcessor)
        (workStep testOption okProcessor (work testOption okProcessor testEvents) .quit)
      = workStep testOption okProcessor (work testOption okProcessor testEvents) .quit := by
  refine ⟨by decide, ?_⟩
  exact (work_quit_drains testOption okProcessor (work testOption okProcessor testEvents)
    (by decide)).2.2.2 _
    (by
      intro e he i
      simp only [List.mem_cons, List.mem_singleton, List.not_mem_nil, or_false] at he
      rcases he with rfl | rfl | rfl | rfl <;> simp)

/-- C4: conservation and order for one worker. For `BatchSize > 0`, a worker that
entered its loop (the `make` of its prologue did not panic) and every finite sequence
of events without quit (item arrivals, timer expiries, timer branches, handlers
returning) followed by one quit, the worker returns and the concatenation, in call
order, of all batches passed to the processor is the sequence of items received, in
arrival order. -/
theorem work_conservation [Inhabited α] (option : AggregatorOption) (bp : BatchProcessFunc α ε)
    (events : List (Event α)) (hb : 0 < option.BatchSize)
    (hlive : (work option bp []).status = .waiting)
    (hq : ∀ e ∈ events, e ≠ .quit) :
    (work option bp (events ++ [.quit])).calls.flatten = received events ∧
    (work option bp (events ++ [.quit])).status = .returned := by
  have hw := work_waiting option bp events hlive hq
  have hc := work_content option bp hb events hw
  rw [work_snoc]
  simp only [workStep, hw]
  refine ⟨?_, onQuit_status option bp _⟩
  by_cases hz : (work option bp events).batch.len = 0
  · have hp : (work option bp events).pending = [] := by
      simp [Worker.pending, Slice.read, hz]
    rw [hp, List.append_nil] at hc
    simpa [onQuit, hz] using hc
  · simpa [onQuit, hz, batchProcess_calls, Worker.pending] using hc

/-- Witness of C4, the run of `TestFlowWithDataRace`: `BatchSize = 10`, items `0..21`,
timer firings, items `22..28`, quit give exactly the four batches of the test's
expected output, and they concatenate to the items received. -/
theorem work_conservation_witness :
    (work testOption okProcessor (testEvents ++ [.quit])).calls
      = [[0, 1, 2, 3, 4, 5, 6, 7, 8, 9], [10, 11, 12, 13, 14, 15, 16, 17, 18, 19], [20, 21],
          [22, 23, 24, 25, 26, 27, 28]] ∧
    (work testOption okProcessor (testEvents ++ [.quit])).calls.flatten
      = List.range 29 ∧
    (work testOption okProcessor (testEvents ++ [.quit])).calls.flatten
      = received testEvents := by
  refine ⟨by decide, by decide, ?_⟩
  exact (work_conservation testOption okProcessor testEvents (by decide) (by decide)
    (by decide)).1

/-- C5: bound on every flushed batch. For `BatchSize > 0` and every sequence of
events processed by a worker started with an empty batch, each batch passed to the
processor has at least one and at most `BatchSize` items, and whenever the worker is
at the select its batch holds fewer than `BatchSize` items. -/
theorem work_batch_bounds [Inhabited α] (option : AggregatorOption) (bp : BatchProcessFunc α ε)
    (events : List (Event α)) (hb : 0 < option.BatchSize) :
    (∀ c ∈ (work option bp events).calls,
      1 ≤ c.length ∧ (c.length : Int) ≤ option.BatchSize) ∧
    ((work option bp events).status = .waiting →
      (work option bp events).pending.length = (work option bp events).batch.len ∧
      ((work option bp events).pending.length : Int) < option.BatchSize) := by
  have hB := work_bounded option bp hb events
  refine ⟨hB.1, fun hw => ?_⟩
  obtain ⟨hcap, hlen⟩ := hB.2 hw
  have hcapI := cap_int option hb hcap
  have hpl : (work option bp events).pending.length = (work option bp events).batch.len :=
    read_length _ _ (by omega)
  exact ⟨hpl, by omega⟩

/-- Witness of C5 on the run of `TestFlowWithDataRace`. -/
theorem work_batch_bounds_witness :
    0 < testOption.BatchSize ∧
    (work testOption okProcessor (testEvents ++ [.quit])).calls.length = 4 ∧
    (∀ c ∈ (work testOption okProcessor (testEvents ++ [.quit])).calls,
      1 ≤ c.length ∧ (c.length : Int) ≤ testOption.BatchSize) := by
  have h := work_batch_bounds testOption okProcessor (testEvents ++ [.quit]) (by decide)
  exact ⟨by decide, by decide, h.1⟩

/-- C8 (the code at the failing input): with `BatchSize = 2`, a failing processor and
an error handler configured, the batch `[1, 2]` is passed to the processor and one
handler is dispatched; a handler reading its argument at once sees `[1, 2]`, but after
the worker has cleared the batch and appended the next item `3` into the same backing
array, the same handler reads `[3, 2]`. -/
theorem errorHandler_reads_overwritten_batch :
    (work handlerOption failProcessor [.item 1 false, .item 2 false]).calls = [[1, 2]] ∧
    (work handlerOption failProcessor [.item 1 false, .item 2 false]).handlers.length = 1 ∧
    (work handlerOption failProcessor [.item 1 false, .item 2 false]).handlerView 0
      = some [1, 2] ∧
    (work handlerOption failProcessor [.item 1 false, .item 2 false, .item 3 false]).calls
      = [[1, 2]] ∧
    (work handlerOption failProcessor
      [.item 1 false, .item 2 false, .item 3 false]).handlerView 0 = some [3, 2] := by
  decide

/-- C9 as stated fails: with a failing processor and an error handler configured,
after items `1, 2` and quit the WaitGroup counter is zero, so `Stop` returns, while
one error-handler dispatch is still outstanding. -/
theorem stop_returns_with_handler_outstanding :
    (work handlerOption failProcessor [.item 1 false, .item 2 false, .quit]).wg = 0 ∧
    (work handlerOption failProcessor [.item 1 false, .item 2 false, .quit]).waitReturns
      = true ∧
    (work handlerOption failProcessor
      [.item 1 false, .item 2 false, .quit]).handlers.length = 1 ∧
    ¬ (∀ events : List (Event Nat),
        (work handlerOption failProcessor events).waitReturns = true →
        (work handlerOption failProcessor events).handlers = []) := by
  refine ⟨by decide, by decide, by decide, fun h => ?_⟩
  have h1 := h [.item 1 false, .item 2 false, .quit] (by decide)
  have h2 := congrArg List.length h1
  revert h2
  decide

/-- C9 amended: the count of the completion tracker is the number of running worker
loops plus the in-progress `batchProcess` calls, and never includes an error-handler
dispatch. In every state a started aggregator reaches between two actions, with any
number of workers and of outstanding handlers, the counter equals the number of
running worker loops; inside `batchProcess` it is one higher from `wg.Add(1)` until
the deferred `wg.Done()`, and spawning the handler does not change it; `Stop` and
`SafeStop` return only with the counter at zero and no loop running; and there are
runs in which `Stop`, respectively `SafeStop`, has returned while an error-handler
dispatch is still outstanding. -/
theorem wg_excludes_error_handlers [Inhabited α] (numCPU : Int) (bp : BatchProcessFunc α ε)
    (optionFuncs : List SetAggregatorOptionFunc) (agt : Aggregator α ε)
    (hnew : NewAggregator numCPU bp optionFuncs = some agt) (actions : List (Action α)) :
    (run agt actions).agt.wg = (run agt actions).running ∧
    ((run agt actions).caller = .returned →
      (run agt actions).agt.wg = 0 ∧ (run agt actions).running = 0 ∧
      ∀ w ∈ (run agt actions).workers, w.status ≠ .waiting) ∧
    (∀ (o : AggregatorOption) (w : Worker α ε) (items : Slice),
      (batchProcessAdd w).wg = w.wg + 1 ∧
      (batchProcessCall o bp (batchProcessAdd w) items).wg = w.wg + 1 ∧
      (batchProcess o bp w items).wg = w.wg ∧
      (∀ err h, bp (items.read w.heap) = some err → o.ErrorHandler = some h →
        (batchProcessCall o bp (batchProcessAdd w) items).handlers
          = w.handlers ++ [⟨err, items⟩])) ∧
    (∃ a, NewAggregator 4 failProcessor handlerSetters = some a ∧
      (run a stopActions).caller = .returned ∧ (run a stopActions).outstanding = 1) ∧
    (∃ a, NewAggregator 4 failProcessor handlerSetters = some a ∧
      (run a safeStopActions).caller = .returned ∧
      (run a safeStopActions).outstanding = 1) := by
  have hinv := run_inv agt (NewAggregator_wg bp numCPU optionFuncs agt hnew) actions
  refine ⟨hinv.1, fun hc => ?_, fun o w items => ⟨rfl, ?_, batchProcess_wg o bp w items, ?_⟩,
    ⟨_, rfl, by decide, by decide⟩, ⟨_, rfl, by decide, by decide⟩⟩
  · have hnone := hinv.2.2 hc
    have hz := sum_of_none_waiting _ hnone
    exact ⟨hinv.1.trans hz, hz, hnone⟩
  · rw [batchProcessCall_wg]
    rfl
  · intro err h herr hh
    have herr2 : bp (items.read (batchProcessAdd w).heap) = some err := herr
    simp only [batchProcessCall, herr2, hh]
    rfl

/-- Witness of C9 amended: one worker, batch size two, failing processor, handler
configured; after the failed flush of `[1, 2]`, `SafeStop(0)` on the empty queue, the
worker taking quit and `Wait` returning, the counter is zero, equal to the number of
running loops, while one handler dispatch is outstanding. -/
theorem wg_excludes_error_handlers_witness :
    ∃ a, NewAggregator 4 failProcessor handlerSetters = some a ∧
      (run a safeStopActions).agt.wg = (run a safeStopActions).running ∧
      (run a safeStopActions).agt.wg = 0 ∧
      (run a safeStopActions).caller = .returned ∧
      (run a safeStopActions).outstanding = 1 :=
  ⟨_, rfl, (wg_excludes_error_handlers 4 failProcessor handlerSetters _ rfl safeStopActions).1,
    by decide, by decide, by decide⟩

/-- The shutdown of `SafeStop` with a positive timeout (the docstring of `SafeStop`
says it guarantees that no item is missed): when `overTimer` fires, quit is closed
although `sendQ` is not empty; the worker drains its local batch `[1]` and returns,
`SafeStop` returns, and the items `2..5` are still in `sendQ`. -/
theorem SafeStop_overTimer_leaves_queue :
    ∃ a, NewAggregator 4 okProcessor slowSetters = some a ∧
      (run a overTimerActions).caller = .returned ∧
      (run a overTimerActions).agt.sendQ = [2, 3, 4, 5] ∧
      (run a overTimerActions).workers.map (fun w => w.calls) = [[[1]]] :=
  ⟨_, rfl, by decide, by decide, by decide⟩

/-- C10: timer reset after a size-triggered flush. In every state the worker reaches
it is never stuck in the drain receive `<-delayTimer.C`, and whenever it is at the
select the delay timer, last armed with the duration `DelayTime`, is either armed
with an empty channel or fired with its value still in the channel. When an arriving
item triggers the size flush, whether or not the timer fired before or during the
flush, the worker is back at the select with the timer armed anew with the duration
`DelayTime` and the channel empty, so the timer branch is not selectable then. -/
theorem delayTimer_reset_after_flush [Inhabited α] (option : AggregatorOption)
    (bp : BatchProcessFunc α ε) (events : List (Event α)) :
    (work option bp events).status ≠ .blocked ∧
    ((work option bp events).status = .waiting →
      (work option bp events).delayTimer = ⟨true, false, option.DelayTime⟩ ∨
      (work option bp events).delayTimer = ⟨false, true, option.DelayTime⟩) ∧
    (∀ (req : α) (fired : Bool), (work option bp events).status = .waiting →
      ¬ (((work option bp events).batch.len : Int) + 1 < option.BatchSize) →
      (work option bp (events ++ [.item req fired])).status = .waiting ∧
      (work option bp (events ++ [.item req fired])).delayTimer
        = ⟨true, false, option.DelayTime⟩ ∧
      (work option bp (events ++ [.item req fired])).calls
        = (work option bp events).calls
          ++ [(Slice.append (work option bp events).heap (work option bp events).batch
                req).2.read
              (Slice.append (work option bp events).heap (work option bp events).batch req).1] ∧
      workStep option bp (work option bp (events ++ [.item req fired])) .timer
        = work option bp (events ++ [.item req fired])) := by
  have hs := work_sound option bp events
  refine ⟨hs.1, hs.2.1, ?_⟩
  intro req fired hw hge
  have hL := append_len (work option bp events).heap (work option bp events).batch req
  have hsm : ¬ ((Slice.append (work option bp events).heap (work option bp events).batch
      req).2.len : Int) < option.BatchSize := by
    rw [hL]
    push_cast
    exact hge
  rw [work_snoc]
  simp only [workStep, hw]
  rw [onItem_reached option bp _ req fired hsm (hs.2.1 hw)]
  refine ⟨?_, rfl, ?_, ?_⟩
  · simpa [batchProcess_status] using hw
  · simp only [batchProcess_calls]
  · simp [batchProcess_status, hw, Timer.recv]

/-- Witness of C10 on the option of the repository test (`DelayTime` = 50ms): the
timer fires after nine items, the tenth item triggers the size flush while the fired
value is still in the channel, and afterwards the timer is armed for 50ms with an
empty channel; the same holds when the timer fires during the flush. -/
theorem delayTimer_reset_after_flush_witness :
    (work testOption okProcessor
      ((List.range 9).map (fun i => Event.item i false) ++ [.expire])).delayTimer
      = ⟨false, true, 50000000⟩ ∧
    (work testOption okProcessor
      (((List.range 9).map (fun i => Event.item i false) ++ [.expire])
        ++ [.item 9 false])).delayTimer = ⟨true, false, 50000000⟩ ∧
    (work testOption okProcessor
      ((List.range 9).map (fun i => Event.item i false) ++ [.item 9 true])).delayTimer
      = ⟨true, false, 50000000⟩ := by
  have h1 := (delayTimer_reset_after_flush testOption okProcessor
    ((List.range 9).map (fun i => Event.item i false) ++ [.expire])).2.2 9 false
    (by decide) (by decide)
  have h2 := (delayTimer_reset_after_flush testOption okProcessor
    ((List.range 9).map (fun i => Event.item i false))).2.2 9 true (by decide) (by decide)
  exact ⟨by decide, h1.2.1, h2.2.1⟩

end WorkerClaims

end Aggr
